import Mathlib

/-!
Verification of the combinatorial enumeration engine, sorted-set membership
index and checkpoint/resume subsystem of the BTC-Brute-Force-Recovery
repository (main.js and hash_database.js), as a shallow embedding in Lean.

Strings from the JavaScript source are embedded as lists of character codes
(`List ℕ`); the 64-bit BigInt arithmetic of `xxhash64` is embedded as natural
number arithmetic reduced modulo `2 ^ 64` exactly where the source masks with
`0xFFFFFFFFFFFFFFFF`.
-/

namespace BTCRecovery

/-! ### hash_database.js -/

/-- One step of the mixing loop of `xxhash64` (hash_database.js lines 213-224):
`h ^= byte; h = rotl64(h, 13); h = (h * 0xc2b2ae3d27d4eb4f) mod 2^64`.
The source masks with `& 0xFFFFFFFFFFFFFFFFn`, which on non-negative BigInts
is reduction modulo `2 ^ 64`. -/
def xxhash64Step (h c : ℕ) : ℕ :=
  let hx := h ^^^ c
  let rot := ((hx <<< 13) ||| (hx >>> 51)) % 2 ^ 64
  (rot * 0xc2b2ae3d27d4eb4f) % 2 ^ 64

/-- The character-code loop of `xxhash64`. -/
def xxhash64Go : List ℕ → ℕ → ℕ
  | [], h => h
  | c :: cs, h => xxhash64Go cs (xxhash64Step h c)

/-- `xxhash64(str)` from hash_database.js lines 213-224: seeded with
`0x9e3779b185ebca87n`, then mixes in the character codes of `str` in order. -/
def xxhash64 (str : List ℕ) : ℕ := xxhash64Go str 0x9e3779b185ebca87

/-- The `while (left <= right)` loop of `binarySearch` (hash_database.js lines
227-245).  `left` and `right` are embedded as integers because the source
initialises `right` to `hashes.length - 1`, which is `-1` on an empty array.
The fuel argument is only a termination device: the loop shrinks the window
`[left, right]` at every step, and `binarySearch` below supplies enough fuel
that the `0` case is reached only when the window is already empty, where
returning `false` agrees with the source loop exit. -/
def bsearchGo (hashes : List ℕ) (targetHash : ℕ) : ℕ → ℤ → ℤ → Bool
  | 0, _, _ => false
  | fuel + 1, left, right =>
    if left ≤ right then
      let mid : ℤ := (left + right) / 2
      let midHash := hashes.getD mid.toNat 0
      if midHash = targetHash then true
      else if midHash < targetHash then bsearchGo hashes targetHash fuel (mid + 1) right
      else bsearchGo hashes targetHash fuel left (mid - 1)
    else false

/-- `binarySearch(targetHash)` from hash_database.js lines 227-245: standard
binary search over the loaded hash array, starting from `left = 0`,
`right = hashes.length - 1`. -/
def binarySearch (hashes : List ℕ) (targetHash : ℕ) : Bool :=
  bsearchGo hashes targetHash (hashes.length + 1) 0 ((hashes.length : ℤ) - 1)

/-- The mutable state of a `HashOnlyBTCDB` object that `hasAddress` consults:
`this.hashes` is `null` until a database has been loaded successfully. -/
structure HashDB where
  hashes : Option (List ℕ)
deriving DecidableEq

/-- `hasAddress(address)` from hash_database.js lines 248-255: returns `false`
immediately when `!this.hashes || this.hashes.length === 0`, otherwise hashes
the address and binary searches for the hash. -/
def hasAddress (db : HashDB) (address : List ℕ) : Bool :=
  match db.hashes with
  | none => false
  | some hs => if hs.length = 0 then false else binarySearch hs (xxhash64 address)

/-- `verifyOrdering()` from hash_database.js lines 203-210: walks `i` from `1`
while `i < Math.min(1000, hashes.length)` and reports `false` on the first
adjacent pair with `hashes[i] <= hashes[i-1]`. -/
def verifyOrdering (hashes : List ℕ) : Bool :=
  (List.range' 1 (min 1000 hashes.length - 1)).all fun i =>
    decide (hashes.getD (i - 1) 0 < hashes.getD i 0)

/-- `buffer.readBigUInt64LE(offset)`: the little-endian 64-bit unsigned
integer formed by the 8 bytes starting at `offset`. -/
def readLE64 (buffer : List ℕ) (offset : ℕ) : ℕ :=
  (List.range 8).foldl (fun acc i => acc + buffer.getD (offset + i) 0 * 256 ^ i) 0

/-- The character codes of the ASCII magic tag `BTCHASH1`. -/
def magicTag : List ℕ := [66, 84, 67, 72, 65, 83, 72, 49]

/-- `loadDatabase(filename)` from hash_database.js lines 138-200, as a function
of the file's bytes.  Returns `none` on each of the failure paths: the four
explicit checks (file shorter than the 24-byte header, wrong magic, hash size
other than 8, fewer data bytes than `hashCount * 8`), on which `this.hashes`
is never assigned, and additionally a declared count of 0 — after the decode
loop the source evaluates `this.hashes[0].toString(16)` (line 186), which on
an empty array throws a TypeError that the surrounding `catch` turns into
`return false` (the assigned `this.hashes = []` is still unusable through
`hasAddress`'s emptiness guard).  On success returns the decoded hash array
together with the non-fatal ordering-warning flag (`true` when
`verifyOrdering` failed; the source only prints a warning and still returns
`true`).

The magic comparison goes through `buffer.toString('ascii', 0, 8)`: Node's
`ascii` decoding unsets the highest bit of every byte, so the source compares
the first 8 bytes modulo 128 against `BTCHASH1`. -/
def loadDatabase (buffer : List ℕ) : Option (List ℕ × Bool) :=
  if buffer.length < 24 then none
  else if (buffer.take 8).map (fun b => b % 128) ≠ magicTag then none
  else
    let hashCount := readLE64 buffer 8
    let hashSize := readLE64 buffer 16
    if hashSize ≠ 8 then none
    else if buffer.length - 24 < hashCount * 8 then none
    else
      let hashes := (List.range hashCount).map fun i => readLE64 buffer (24 + i * 8)
      if hashCount = 0 then none
      else some (hashes, !verifyOrdering hashes)

/-- The conditions under which `loadDatabase` yields a usable index: the four
structural header/size checks it performs fatally, plus a non-zero element
count — a zero-count file passes the checks but then crashes on
`this.hashes[0].toString(16)` and fails to load.  The sortedness sample is
deliberately not among these conditions. -/
def structuralOk (buffer : List ℕ) : Prop :=
  24 ≤ buffer.length ∧
    (buffer.take 8).map (fun b => b % 128) = magicTag ∧
    readLE64 buffer 16 = 8 ∧
    readLE64 buffer 8 * 8 ≤ buffer.length - 24 ∧
    readLE64 buffer 8 ≠ 0

instance (buffer : List ℕ) : Decidable (structuralOk buffer) := by
  unfold structuralOk
  infer_instance

/-! ### main.js: combinatorial enumerator -/

/-- The scan `let i = 11; while (i >= 0 && indices[i] === 2036 + i) i--;` of
`nextCombination` (main.js lines 97-118): called with fuel `12`, it returns the
rightmost position `i < 12` with `indices[i] !== 2036 + i`, or `none` when
every position sits at `2036 + i`. -/
def findRight (indices : List ℕ) : ℕ → Option ℕ
  | 0 => none
  | i + 1 => if indices.getD i 0 = 2036 + i then findRight indices i else some i

/-- `nextCombination(indices)` from main.js lines 97-118 (`k = 12`,
`n = 2048`, so position `i` maxes out at `2036 + i`): returns `none` in place
of the source's `return false` (exhaustion); otherwise increments the found
position to `val` and overwrites every later position `j` with
`val + (j - i)`, exactly what the fall-through `switch` performs. -/
def nextCombination (indices : List ℕ) : Option (List ℕ) :=
  match findRight indices 12 with
  | none => none
  | some i =>
      let val := indices.getD i 0 + 1
      some ((List.range 12).map fun j => if j < i then indices.getD j 0 else val + (j - i))

/-- The fresh-start state `[0,1,2,3,4,5,6,7,8,9,10,11]` built by
`startPermutationSearch` (main.js lines 294-299). -/
def firstCombination : List ℕ := List.range 12

/-- Strictly increasing indices, read positionally as the source does. -/
def StrictIncr (s : List ℕ) : Prop :=
  ∀ j, j < 12 → ∀ i, i < j → s.getD i 0 < s.getD j 0

/-- Every position within its maximum `2036 + i` (that is, `n - k + i` for
`n = 2048`, `k = 12`). -/
def InRange (s : List ℕ) : Prop := ∀ i, i < 12 → s.getD i 0 ≤ 2036 + i

/-- The CombinationState invariant: 12 indices, strictly increasing, each
within its positional maximum. -/
def ValidState (s : List ℕ) : Prop := s.length = 12 ∧ StrictIncr s ∧ InRange s

/-- The terminal state: every position at its maximum `2036 + i`. -/
def atMax (s : List ℕ) : Prop := ∀ i, i < 12 → s.getD i 0 = 2036 + i

/-- Lexicographic order on 12-index combination states: the index vectors are
compared element-wise, leftmost first. -/
def lexLt (s t : List ℕ) : Prop :=
  ∃ j, j < 12 ∧ (∀ m, m < j → s.getD m 0 = t.getD m 0) ∧ s.getD j 0 < t.getD j 0

instance (s : List ℕ) : Decidable (StrictIncr s) := by
  unfold StrictIncr
  infer_instance

instance (s : List ℕ) : Decidable (InRange s) := by
  unfold InRange
  infer_instance

instance (s : List ℕ) : Decidable (ValidState s) := by
  unfold ValidState
  infer_instance

instance (s : List ℕ) : Decidable (atMax s) := by
  unfold atMax
  infer_instance

instance (s t : List ℕ) : Decidable (lexLt s t) := by
  unfold lexLt
  infer_instance

/-! ### main.js: driver, found records and checkpoints -/

/-- One element of the `foundAddresses` array built by `checkSeedPhrase`
(main.js lines 169-175): the derivation position `i` and the matched address.
(The source also stores the derivation path string, which is a pure rendering
of the same position `i`.) -/
structure FoundEntry where
  index : ℕ
  address : List ℕ
deriving DecidableEq

/-- `checkSeedPhrase(seedPhrase)` from main.js lines 161-179, as a function of
the derived address list.  The source initialises
`const foundAddresses = new Array(12)` — a sparse JavaScript array of 12 empty
slots, embedded as 12 `none`s — and then `push`es one entry per address the
database reports, in ascending position order, setting `found` on any hit. -/
def checkSeedPhrase (db : HashDB) (addresses : List (List ℕ)) :
    List (Option FoundEntry) × Bool :=
  let matched := (addresses.enum.filter fun p => hasAddress db p.2).map
    fun p => FoundEntry.mk p.1 p.2
  (List.replicate 12 none ++ matched.map some, !matched.isEmpty)

/-- `generateAddresses(seedPhrase)` from main.js lines 122-158, as a function
of the two collaborator outcomes it folds over: the `bip39.validateMnemonic`
verdict and the result of the BIP32 derivation pipeline, which either yields
the derived address list or throws.  An invalid mnemonic returns `[]`
(line 126), and the surrounding `try`/`catch` turns any thrown derivation
error into the same `[]` (line 156). -/
def generateAddresses (validMnemonic : Bool) (derived : Except Unit (List (List ℕ))) :
    List (List ℕ) :=
  if !validMnemonic then []
  else
    match derived with
    | Except.ok addresses => addresses
    | Except.error _ => []

/-- One element of `this.foundSeeds` (main.js lines 353-357). -/
structure FoundSeed where
  seedPhrase : List ℕ
  foundAddresses : List (Option FoundEntry)
  filename : List ℕ
deriving DecidableEq

/-- The fields of a `SeedPermutationRecovery` object that the checkpoint
subsystem reads and writes. -/
structure RecoveryState where
  currentIndices : Option (List ℕ)
  checkedCombinations : ℕ
  foundSeeds : List FoundSeed
deriving DecidableEq

/-- The JSON object written by `saveCheckpoint` (main.js lines 397-412).
Fields read back through `||`-defaulting or absent from a hand-written file
are embedded as `Option`; `timestamp` and `elapsedTime` are display-only. -/
structure Checkpoint where
  indices : Option (List ℕ)
  checkedCombinations : Option ℕ
  foundSeeds : Option (List FoundSeed)
  timestamp : List ℕ
  elapsedTime : List ℕ
deriving DecidableEq

/-- `saveCheckpoint()` from main.js lines 397-412: serialises
`this.currentIndices` (or `null`), `this.checkedCombinations` and
`this.foundSeeds`, plus the two display-only strings. -/
def saveCheckpoint (st : RecoveryState) (timestamp elapsedTime : List ℕ) : Checkpoint :=
  { indices := st.currentIndices
    checkedCombinations := some st.checkedCombinations
    foundSeeds := some st.foundSeeds
    timestamp := timestamp
    elapsedTime := elapsedTime }

/-- `loadCheckpoint()` from main.js lines 415-443, as a function of the parsed
checkpoint file: `none` stands for a missing file or a `JSON.parse` failure
(both caught and logged, leaving the state untouched).  When the file parses
and `checkpoint.indices` is truthy, the indices are adopted unchanged and the
counters are restored with `|| 0` / `|| []` defaulting; otherwise the state is
left as it was ("starting fresh"). -/
def loadCheckpoint (st : RecoveryState) (file : Option Checkpoint) : RecoveryState :=
  match file with
  | none => st
  | some checkpoint =>
      match checkpoint.indices with
      | none => st
      | some idx =>
          { st with
            currentIndices := some idx
            checkedCombinations := checkpoint.checkedCombinations.getD 0
            foundSeeds := checkpoint.foundSeeds.getD [] }

/-- The enumerator state `startPermutationSearch` begins with (main.js lines
288-300): the checkpointed indices when present, else `firstCombination`. -/
def startIndices (st : RecoveryState) : List ℕ :=
  st.currentIndices.getD firstCombination

/-- The `do … while (this.nextCombination(indices))` loop of
`startPermutationSearch` (main.js lines 326-368), run for at most `fuel`
iterations.  Returns the list of combination states tested in order, the
final value of `indices`, and whether the loop exited through exhaustion
(`nextCombination` returning `false`).  Each iteration first tests the current
`indices` (incrementing `checkedCombinations`) and then advances; every yield
point, checkpoint write and interruption therefore sees `currentIndices`
equal to the most recently tested combination. -/
def runLoop : List ℕ → ℕ → List (List ℕ) × List ℕ × Bool
  | indices, 0 => ([], indices, false)
  | indices, fuel + 1 =>
    match nextCombination indices with
    | none => ([indices], indices, true)
    | some nxt =>
        let r := runLoop nxt fuel
        (indices :: r.1, r.2.1, r.2.2)

/-! ### Helper lemmas: positional access -/

lemma getD_map_range (f : ℕ → ℕ) {n j : ℕ} (h : j < n) :
    ((List.range n).map f).getD j 0 = f j := by
  rw [List.getD_eq_getElem?_getD, List.getElem?_map, List.getElem?_range h]
  rfl

lemma list_eq_of_getD {s u : List ℕ} (hs : s.length = 12) (hu : u.length = 12)
    (h : ∀ m, m < 12 → s.getD m 0 = u.getD m 0) : s = u := by
  apply List.ext_getElem (by omega)
  intro n h1 h2
  have hn := h n (by omega)
  rwa [List.getD_eq_getElem s 0 h1, List.getD_eq_getElem u 0 h2] at hn

/-! ### Helper lemmas: the successor function -/

lemma findRight_none {s : List ℕ} {m : ℕ} (h : findRight s m = none) :
    ∀ i, i < m → s.getD i 0 = 2036 + i := by
  induction m with
  | zero => intro i hi; omega
  | succ k ih =>
      intro i hi
      unfold findRight at h
      by_cases hk : s.getD k 0 = 2036 + k
      · rw [if_pos hk] at h
        rcases Nat.lt_succ_iff_lt_or_eq.mp hi with h' | h'
        · exact ih h i h'
        · subst h'; exact hk
      · rw [if_neg hk] at h
        exact absurd h (by simp)

lemma findRight_some {s : List ℕ} {m i : ℕ} (h : findRight s m = some i) :
    i < m ∧ s.getD i 0 ≠ 2036 + i ∧ ∀ j, i < j → j < m → s.getD j 0 = 2036 + j := by
  induction m with
  | zero => simp [findRight] at h
  | succ k ih =>
      unfold findRight at h
      by_cases hk : s.getD k 0 = 2036 + k
      · rw [if_pos hk] at h
        obtain ⟨h1, h2, h3⟩ := ih h
        refine ⟨by omega, h2, ?_⟩
        intro j hj1 hj2
        rcases Nat.lt_succ_iff_lt_or_eq.mp hj2 with h' | h'
        · exact h3 j hj1 h'
        · subst h'; exact hk
      · rw [if_neg hk] at h
        injection h with h
        subst h
        refine ⟨Nat.lt_succ_self _, hk, ?_⟩
        intro j hj1 hj2
        omega

lemma nextCombination_none_iff {s : List ℕ} :
    nextCombination s = none ↔ ∀ i, i < 12 → s.getD i 0 = 2036 + i := by
  unfold nextCombination
  cases hf : findRight s 12 with
  | none =>
      constructor
      · intro _
        exact fun i hi => findRight_none hf i hi
      · intro _
        rfl
  | some i =>
      obtain ⟨h1, h2, _⟩ := findRight_some hf
      constructor
      · intro h
        exact absurd h (by simp)
      · intro hall
        exact absurd (hall i h1) h2

lemma nextCombination_some_spec {s t : List ℕ} (h : nextCombination s = some t) :
    ∃ i, i < 12 ∧ s.getD i 0 ≠ 2036 + i ∧ (∀ j, i < j → j < 12 → s.getD j 0 = 2036 + j) ∧
      t.length = 12 ∧
      (∀ j, j < i → t.getD j 0 = s.getD j 0) ∧
      (∀ j, i ≤ j → j < 12 → t.getD j 0 = s.getD i 0 + 1 + (j - i)) := by
  unfold nextCombination at h
  cases hf : findRight s 12 with
  | none => rw [hf] at h; exact absurd h (by simp)
  | some i =>
      rw [hf] at h
      obtain ⟨h1, h2, h3⟩ := findRight_some hf
      have ht : t = (List.range 12).map
          fun j => if j < i then s.getD j 0 else s.getD i 0 + 1 + (j - i) := by
        rw [← Option.some_inj.mp h]
      refine ⟨i, h1, h2, h3, ?_, ?_, ?_⟩
      · rw [ht]; simp
      · intro j hj
        rw [ht, getD_map_range _ (by omega), if_pos hj]
      · intro j hj1 hj2
        rw [ht, getD_map_range _ hj2, if_neg (by omega)]

lemma nextCombination_valid_spec {s t : List ℕ} (hv : ValidState s)
    (h : nextCombination s = some t) :
    ∃ i, i < 12 ∧ s.getD i 0 < 2036 + i ∧ (∀ j, i < j → j < 12 → s.getD j 0 = 2036 + j) ∧
      t.length = 12 ∧
      (∀ j, j < i → t.getD j 0 = s.getD j 0) ∧
      (∀ j, i ≤ j → j < 12 → t.getD j 0 = s.getD i 0 + 1 + (j - i)) := by
  obtain ⟨i, h1, h2, h3, h4, h5, h6⟩ := nextCombination_some_spec h
  exact ⟨i, h1, lt_of_le_of_ne (hv.2.2 i h1) h2, h3, h4, h5, h6⟩

lemma next_valid {s t : List ℕ} (hv : ValidState s) (h : nextCombination s = some t) :
    ValidState t := by
  obtain ⟨i, h1, h2, h3, h4, h5, h6⟩ := nextCombination_valid_spec hv h
  obtain ⟨hlen, hinc, hrange⟩ := hv
  refine ⟨h4, ?_, ?_⟩
  · intro j hj i' hi'
    by_cases hji : j < i
    · rw [h5 j hji, h5 i' (by omega)]
      exact hinc j hj i' hi'
    · rw [h6 j (by omega) hj]
      by_cases hii : i' < i
      · rw [h5 i' hii]
        have := hinc i h1 i' hii
        omega
      · rw [h6 i' (by omega) (by omega)]
        omega
  · intro j hj
    by_cases hji : j < i
    · rw [h5 j hji]
      exact hrange j hj
    · rw [h6 j (by omega) hj]
      omega

lemma next_lexLt {s t : List ℕ} (hv : ValidState s) (h : nextCombination s = some t) :
    lexLt s t := by
  obtain ⟨i, h1, h2, h3, h4, h5, h6⟩ := nextCombination_valid_spec hv h
  refine ⟨i, h1, ?_, ?_⟩
  · intro m hm
    exact (h5 m hm).symm
  · rw [h6 i le_rfl h1]
    omega

lemma next_min {s t u : List ℕ} (hv : ValidState s) (hu : ValidState u)
    (h : nextCombination s = some t) (hlt : lexLt s u) : u = t ∨ lexLt t u := by
  obtain ⟨i, h1, h2, h3, h4, h5, h6⟩ := nextCombination_valid_spec hv h
  obtain ⟨j0, hj0, heq, hlt0⟩ := hlt
  rcases lt_trichotomy j0 i with hji | hji | hji
  · right
    refine ⟨j0, hj0, ?_, ?_⟩
    · intro m hm
      rw [h5 m (by omega), heq m hm]
    · rw [h5 j0 hji]
      exact hlt0
  · subst hji
    have hagree : ∀ m, m < j0 → t.getD m 0 = u.getD m 0 := by
      intro m hm
      rw [h5 m hm, heq m hm]
    have hui : t.getD j0 0 ≤ u.getD j0 0 := by
      rw [h6 j0 le_rfl hj0]
      omega
    have walk : ∀ d, j0 + d < 12 →
        (∀ l, l ≤ j0 + d → l < 12 → u.getD l 0 = t.getD l 0) ∨ lexLt t u := by
      intro d
      induction d with
      | zero =>
          intro _
          rcases eq_or_lt_of_le hui with he | hlt'
          · left
            intro l hl _
            rcases lt_or_eq_of_le hl with h' | h'
            · exact (hagree l h').symm
            · subst h'
              exact he.symm
          · right
            exact ⟨j0, hj0, hagree, hlt'⟩
      | succ d ih =>
          intro hd
          rcases ih (by omega) with hall | hlex
          · have hum : u.getD (j0 + d) 0 = t.getD (j0 + d) 0 := hall _ le_rfl (by omega)
            have hstep : u.getD (j0 + d) 0 < u.getD (j0 + d + 1) 0 :=
              hu.2.1 (j0 + d + 1) hd (j0 + d) (by omega)
            have ht1 : t.getD (j0 + d) 0 = s.getD j0 0 + 1 + d := by
              rw [h6 (j0 + d) (by omega) (by omega)]
              omega
            have ht2 : t.getD (j0 + d + 1) 0 = s.getD j0 0 + 1 + (d + 1) := by
              rw [h6 (j0 + d + 1) (by omega) hd]
              omega
            rcases eq_or_lt_of_le
                (show t.getD (j0 + d + 1) 0 ≤ u.getD (j0 + d + 1) 0 by omega) with he | hlt'
            · left
              intro l hl hl2
              by_cases hc : l ≤ j0 + d
              · exact hall l hc hl2
              · have hl3 : l = j0 + d + 1 := by omega
                subst hl3
                exact he.symm
            · right
              refine ⟨j0 + d + 1, hd, ?_, hlt'⟩
              intro m hm
              by_cases hc : m < j0
              · exact hagree m hc
              · exact (hall m (by omega) (by omega)).symm
          · exact Or.inr hlex
    rcases walk (11 - j0) (by omega) with hall | hlex
    · left
      apply list_eq_of_getD hu.1 h4
      intro m hm
      exact hall m (by omega) hm
    · right
      exact hlex
  · exfalso
    have hs : s.getD j0 0 = 2036 + j0 := h3 j0 hji hj0
    have hub : u.getD j0 0 ≤ 2036 + j0 := hu.2.2 j0 hj0
    omega

/-! ### Helper lemmas: the driver loop -/

lemma runLoop_of_none {s : List ℕ} (fuel : ℕ) (h : nextCombination s = none) :
    runLoop s (fuel + 1) = ([s], s, true) := by
  unfold runLoop
  rw [h]

lemma runLoop_of_some {s nxt : List ℕ} (fuel : ℕ) (h : nextCombination s = some nxt) :
    runLoop s (fuel + 1) =
      (s :: (runLoop nxt fuel).1, (runLoop nxt fuel).2.1, (runLoop nxt fuel).2.2) := by
  conv_lhs => unfold runLoop
  rw [h]

lemma runLoop_length {s : List ℕ} {m : ℕ} {T : List (List ℕ)} {fin : List ℕ}
    (h : runLoop s m = (T, fin, false)) : T.length = m := by
  induction m generalizing s T fin with
  | zero =>
      unfold runLoop at h
      injection h with h1 _
      rw [← h1]
      rfl
  | succ k ih =>
      cases hn : nextCombination s with
      | none =>
          rw [runLoop_of_none k hn] at h
          simp at h
      | some nxt =>
          rcases hr : runLoop nxt k with ⟨T', fin', ex'⟩
          rw [runLoop_of_some k hn, hr] at h
          simp only [Prod.mk.injEq] at h
          obtain ⟨h1, h2, h3⟩ := h
          subst h2 h3
          rw [← h1]
          simp [ih hr]

lemma runLoop_split {s : List ℕ} {m : ℕ} {T₁ : List (List ℕ)} {fin : List ℕ}
    (h : runLoop s m = (T₁, fin, false)) (j : ℕ) :
    runLoop s (m + j) = (T₁ ++ (runLoop fin j).1, (runLoop fin j).2) := by
  induction m generalizing s T₁ fin with
  | zero =>
      unfold runLoop at h
      injection h with h1 h2
      injection h2 with h2 _
      subst h2
      rw [← h1]
      simp
  | succ k ih =>
      cases hn : nextCombination s with
      | none =>
          rw [runLoop_of_none k hn] at h
          simp at h
      | some nxt =>
          rcases hr : runLoop nxt k with ⟨T', fin', ex'⟩
          rw [runLoop_of_some k hn, hr] at h
          simp only [Prod.mk.injEq] at h
          obtain ⟨h1, h2, h3⟩ := h
          subst h2 h3
          have hstep : k + 1 + j = (k + j) + 1 := by omega
          rw [hstep, runLoop_of_some (k + j) hn, ih hr]
          rw [← h1]
          simp

lemma getLastD_mem {α : Type} {l : List α} (h : l ≠ []) (d : α) : l.getLastD d ∈ l := by
  induction l generalizing d with
  | nil => exact absurd rfl h
  | cons a l ih =>
      cases hl : l with
      | nil => simp [List.getLastD_cons]
      | cons b l' =>
          rw [List.getLastD_cons]
          right
          rw [← hl]
          exact ih (by simp [hl]) a

lemma getLastD_irrel {α : Type} {l : List α} (h : l ≠ []) (d d' : α) :
    l.getLastD d = l.getLastD d' := by
  cases l with
  | nil => exact absurd rfl h
  | cons a l => rw [List.getLastD_cons, List.getLastD_cons]

lemma runLoop_last_next {s : List ℕ} {m : ℕ} {T₁ : List (List ℕ)} {fin : List ℕ}
    (hm : 0 < m) (h : runLoop s m = (T₁, fin, false)) :
    T₁ ≠ [] ∧ nextCombination (T₁.getLastD []) = some fin := by
  induction m generalizing s T₁ fin with
  | zero => omega
  | succ k ih =>
      cases hn : nextCombination s with
      | none =>
          rw [runLoop_of_none k hn] at h
          simp at h
      | some nxt =>
          rcases hr : runLoop nxt k with ⟨T', fin', ex'⟩
          rw [runLoop_of_some k hn, hr] at h
          simp only [Prod.mk.injEq] at h
          obtain ⟨h1, h2, h3⟩ := h
          subst h2 h3
          rcases Nat.eq_zero_or_pos k with hk | hk
          · subst hk
            unfold runLoop at hr
            injection hr with hr1 hr2
            injection hr2 with hr2 _
            subst hr2
            rw [← h1, ← hr1]
            simp only [List.getLastD_cons]
            exact ⟨by simp, by simpa using hn⟩
          · obtain ⟨hne, hlast⟩ := ih hk hr
            rw [← h1]
            refine ⟨by simp, ?_⟩
            rw [List.getLastD_cons, getLastD_irrel hne s []]
            exact hlast

lemma runLoop_head {s : List ℕ} (fuel : ℕ) (hf : 0 < fuel) :
    (runLoop s fuel).1.head? = some s := by
  cases fuel with
  | zero => omega
  | succ k =>
      cases hn : nextCombination s with
      | none => rw [runLoop_of_none k hn]; rfl
      | some nxt => rw [runLoop_of_some k hn]; rfl

lemma runLoop_chain {s : List ℕ} (hv : ValidState s) (fuel : ℕ) :
    (runLoop s fuel).1.Chain' lexLt ∧ ∀ t ∈ (runLoop s fuel).1, ValidState t := by
  induction fuel generalizing s with
  | zero => exact ⟨by simp [runLoop], by simp [runLoop]⟩
  | succ k ih =>
      cases hn : nextCombination s with
      | none =>
          rw [runLoop_of_none k hn]
          exact ⟨by simp, by simpa using hv⟩
      | some nxt =>
          rw [runLoop_of_some k hn]
          obtain ⟨hchain, hval⟩ := ih (next_valid hv hn)
          constructor
          · rw [List.chain'_cons']
            refine ⟨?_, hchain⟩
            intro y hy
            rcases Nat.eq_zero_or_pos k with hk | hk
            · subst hk
              simp [runLoop] at hy
            · rw [runLoop_head k hk] at hy
              simp only [Option.mem_def, Option.some_inj] at hy
              subst hy
              exact next_lexLt hv hn
          · intro t ht
            rcases List.mem_cons.mp ht with ht | ht
            · subst ht; exact hv
            · exact hval t ht

/-! ### Helper lemmas: the tail segment of the enumeration

While only position 11 moves (its value below the maximum 2047), each step of
the enumeration is `[0,…,10,x] ↦ [0,…,10,x+1]`; this characterises the first
2036 tested combinations of a fresh run in closed form. -/

lemma tailState_getD_last (x : ℕ) : (List.range 11 ++ [x]).getD 11 0 = x := by
  simp [List.getD_eq_getElem?_getD, List.getElem?_append]

lemma tailState_getD_lt {x m : ℕ} (hm : m < 11) : (List.range 11 ++ [x]).getD m 0 = m := by
  simp [List.getD_eq_getElem?_getD, List.getElem?_append, hm, List.getElem?_range]

lemma findRight_succ_ne {s : List ℕ} {i : ℕ} (h : s.getD i 0 ≠ 2036 + i) :
    findRight s (i + 1) = some i := by
  rw [findRight, if_neg h]

lemma next_tail {x : ℕ} (hx : x ≠ 2047) :
    nextCombination (List.range 11 ++ [x]) = some (List.range 11 ++ [x + 1]) := by
  have hfr : findRight (List.range 11 ++ [x]) 12 = some 11 :=
    findRight_succ_ne (by rw [tailState_getD_last]; omega)
  unfold nextCombination
  rw [hfr]
  congr 1

lemma tailRun (fuel : ℕ) : ∀ x, x + fuel ≤ 2047 →
    runLoop (List.range 11 ++ [x]) fuel =
      ((List.range fuel).map fun t => List.range 11 ++ [x + t],
        List.range 11 ++ [x + fuel], false) := by
  induction fuel with
  | zero =>
      intro x _
      simp [runLoop]
  | succ k ih =>
      intro x hfu
      have h1 : ∀ p : List ℕ, (List.range (k + 1)).map (fun t => p ++ [x + t])
          = (p ++ [x]) :: ((List.range k).map fun t => p ++ [x + 1 + t]) := by
        intro p
        rw [List.range_succ_eq_map, List.map_cons, List.map_map]
        congr 1
        apply List.map_congr_left
        intro a _
        have ha : x + Nat.succ a = x + 1 + a := by omega
        show p ++ [x + Nat.succ a] = p ++ [x + 1 + a]
        rw [ha]
      rw [runLoop_of_some k (next_tail (by omega)), ih (x + 1) (by omega), h1 (List.range 11)]
      have h2 : x + 1 + k = x + (k + 1) := by omega
      simp [h2]

lemma getLastD_map_range {α : Type} (f : ℕ → α) (n : ℕ) (hn : 0 < n) (d : α) :
    ((List.range n).map f).getLastD d = f (n - 1) := by
  obtain ⟨m, rfl⟩ : ∃ m, n = m + 1 := ⟨n - 1, by omega⟩
  rw [List.range_succ, List.map_append]
  simp [List.getLastD_concat]

/-! ### Claim C2 -/

/-- C2: for every valid combination state (12 strictly increasing indices with
`idx[i] ≤ 2036 + i` for the universe `n = 2048`, `k = 12`), `nextCombination`
returns `none` exactly when every position has reached its maximum `2036 + i`
(exhaustion); otherwise there is a rightmost position `i` whose value is below
its maximum: every later position of the input sits at its maximum, the output
keeps every earlier position, increments position `i`, resets every later
position to consecutive values starting at the new value plus one, and the
output is a valid (strictly increasing, in-range) state that is the immediate
lexicographic successor of the input. -/
theorem nextCombination_correct (s : List ℕ) (hv : ValidState s) :
    (nextCombination s = none ↔ atMax s) ∧
    ∀ t, nextCombination s = some t →
      ∃ i, i < 12 ∧ s.getD i 0 < 2036 + i ∧
        (∀ j, i < j → j < 12 → s.getD j 0 = 2036 + j) ∧
        (∀ j, j < i → t.getD j 0 = s.getD j 0) ∧
        (∀ j, i ≤ j → j < 12 → t.getD j 0 = s.getD i 0 + 1 + (j - i)) ∧
        ValidState t ∧ lexLt s t ∧
        ∀ u, ValidState u → lexLt s u → u = t ∨ lexLt t u := by
  refine ⟨nextCombination_none_iff, ?_⟩
  intro t h
  obtain ⟨i, h1, h2, h3, _, h5, h6⟩ := nextCombination_valid_spec hv h
  exact ⟨i, h1, h2, h3, h5, h6, next_valid hv h, next_lexLt hv h,
    fun u hu hlt => next_min hv hu h hlt⟩

/-- Witness for `nextCombination_correct`, instantiated at the fresh-start
state `[0,…,11]`. -/
theorem nextCombination_correct_witness :
    ValidState firstCombination ∧
      ((nextCombination firstCombination = none ↔ atMax firstCombination) ∧
        ∀ t, nextCombination firstCombination = some t →
          ∃ i, i < 12 ∧ firstCombination.getD i 0 < 2036 + i ∧
            (∀ j, i < j → j < 12 → firstCombination.getD j 0 = 2036 + j) ∧
            (∀ j, j < i → t.getD j 0 = firstCombination.getD j 0) ∧
            (∀ j, i ≤ j → j < 12 →
              t.getD j 0 = firstCombination.getD i 0 + 1 + (j - i)) ∧
            ValidState t ∧ lexLt firstCombination t ∧
            ∀ u, ValidState u → lexLt firstCombination u → u = t ∨ lexLt t u) :=
  ⟨by decide, nextCombination_correct firstCombination (by decide)⟩

/-! ### Claim C1 -/

/-- C1 (amended): a checkpoint always stores the most recently *tested*
combination (`T₁.getLastD []` below), and the resumed `do … while` loop tests
the checkpointed state again before advancing.  Consequently an interrupted
run of `m` iterations followed by a resumed run covers exactly the same
combinations as the uninterrupted run, in the same order, except that the
checkpointed combination is tested twice; the combined tested count exceeds
the uninterrupted count by one, the set of tested combinations (and hence the
set of found records, for any hit predicate) agrees, the resumed run ends in
the same final state, and the uninterrupted run itself is strictly
lexicographically increasing. -/
theorem interrupted_resume_coverage (s : List ℕ) (m j : ℕ) (T₁ : List (List ℕ))
    (fin : List ℕ) (hv : ValidState s) (hm : 1 ≤ m)
    (h₁ : runLoop s m = (T₁, fin, false)) :
    T₁ ++ (runLoop (T₁.getLastD []) (1 + j)).1 =
        (runLoop s (m + j)).1.take m ++
          T₁.getLastD [] :: (runLoop s (m + j)).1.drop m ∧
    (T₁ ++ (runLoop (T₁.getLastD []) (1 + j)).1).length =
        (runLoop s (m + j)).1.length + 1 ∧
    (T₁ ++ (runLoop (T₁.getLastD []) (1 + j)).1).toFinset =
        (runLoop s (m + j)).1.toFinset ∧
    (∀ hit : List ℕ → Bool,
      ((T₁ ++ (runLoop (T₁.getLastD []) (1 + j)).1).filter hit).toFinset =
        ((runLoop s (m + j)).1.filter hit).toFinset) ∧
    (runLoop (T₁.getLastD []) (1 + j)).2 = (runLoop s (m + j)).2 ∧
    (runLoop s (m + j)).1.Chain' lexLt := by
  obtain ⟨hne, hlast⟩ := runLoop_last_next hm h₁
  have hsplit := runLoop_split h₁ j
  have hres : runLoop (T₁.getLastD []) (1 + j) =
      (T₁.getLastD [] :: (runLoop fin j).1, (runLoop fin j).2.1, (runLoop fin j).2.2) := by
    rw [show 1 + j = j + 1 by omega]
    exact runLoop_of_some j hlast
  have hlen : T₁.length = m := runLoop_length h₁
  have hmem : T₁.getLastD [] ∈ T₁ := getLastD_mem hne []
  have hfull1 : (runLoop s (m + j)).1 = T₁ ++ (runLoop fin j).1 := by rw [hsplit]
  have hfull2 : (runLoop s (m + j)).2 = (runLoop fin j).2 := by rw [hsplit]
  have htake : (runLoop s (m + j)).1.take m = T₁ := by
    rw [hfull1, ← hlen, List.take_left]
  have hdrop : (runLoop s (m + j)).1.drop m = (runLoop fin j).1 := by
    rw [hfull1, ← hlen, List.drop_left]
  refine ⟨?_, ?_, ?_, ?_, ?_, ?_⟩
  · rw [hres, htake, hdrop]
  · rw [hres, hfull1]
    simp only [List.length_append, List.length_cons]
    omega
  · rw [hres, hfull1]
    simp only [List.toFinset_append, List.toFinset_cons, Finset.union_insert]
    exact Finset.insert_eq_self.mpr (Finset.mem_union_left _ (List.mem_toFinset.mpr hmem))
  · intro hit
    rw [hres, hfull1]
    simp only [List.filter_append, List.filter_cons]
    by_cases hc : hit (T₁.getLastD []) = true
    · rw [if_pos hc]
      simp only [List.toFinset_append, List.toFinset_cons, Finset.union_insert]
      exact Finset.insert_eq_self.mpr
        (Finset.mem_union_left _ (List.mem_toFinset.mpr (List.mem_filter.mpr ⟨hmem, hc⟩)))
    · rw [if_neg hc]
  · rw [hres, hfull2]
  · exact (runLoop_chain hv (m + j)).1

/-- Witness for `interrupted_resume_coverage`: a fresh run interrupted after
2 iterations and resumed for 2 more, against the uninterrupted 3-iteration
run. -/
theorem interrupted_resume_coverage_witness :
    ValidState firstCombination ∧ 1 ≤ 2 ∧
      runLoop firstCombination 2 =
        ([[0, 1, 2, 3, 4, 5, 6, 7, 8, 9, 10, 11], [0, 1, 2, 3, 4, 5, 6, 7, 8, 9, 10, 12]],
          [0, 1, 2, 3, 4, 5, 6, 7, 8, 9, 10, 13], false) ∧
      (let T₁ : List (List ℕ) :=
        [[0, 1, 2, 3, 4, 5, 6, 7, 8, 9, 10, 11], [0, 1, 2, 3, 4, 5, 6, 7, 8, 9, 10, 12]]
       T₁ ++ (runLoop (T₁.getLastD []) (1 + 1)).1 =
          (runLoop firstCombination (2 + 1)).1.take 2 ++
            T₁.getLastD [] :: (runLoop firstCombination (2 + 1)).1.drop 2 ∧
        (T₁ ++ (runLoop (T₁.getLastD []) (1 + 1)).1).length =
            (runLoop firstCombination (2 + 1)).1.length + 1 ∧
        (T₁ ++ (runLoop (T₁.getLastD []) (1 + 1)).1).toFinset =
            (runLoop firstCombination (2 + 1)).1.toFinset ∧
        (∀ hit : List ℕ → Bool,
          ((T₁ ++ (runLoop (T₁.getLastD []) (1 + 1)).1).filter hit).toFinset =
            ((runLoop firstCombination (2 + 1)).1.filter hit).toFinset) ∧
        (runLoop (T₁.getLastD []) (1 + 1)).2 = (runLoop firstCombination (2 + 1)).2 ∧
        (runLoop firstCombination (2 + 1)).1.Chain' lexLt) :=
  ⟨by decide, by decide, by decide,
    interrupted_resume_coverage firstCombination 2 1
      [[0, 1, 2, 3, 4, 5, 6, 7, 8, 9, 10, 11], [0, 1, 2, 3, 4, 5, 6, 7, 8, 9, 10, 12]]
      [0, 1, 2, 3, 4, 5, 6, 7, 8, 9, 10, 13] (by decide) (by decide) (by decide)⟩

set_option maxRecDepth 4000 in
/-- C1 counterexample: a fresh run interrupted at the yield point after 1000
iterations is not exhausted and checkpoints the 1000th tested combination
`[0,…,10,1010]`; the resumed loop's very first tested combination is that same
checkpointed state, which the interrupted segment had already tested — the
combined execution tests it twice, contradicting the claim that resuming skips
nothing and tests no combination twice while reporting the same totals. -/
theorem resume_retests_checkpoint_counterexample :
    (runLoop firstCombination 1000).2.2 = false ∧
    (runLoop firstCombination 1000).1.getLastD [] = List.range 11 ++ [1010] ∧
    (runLoop (List.range 11 ++ [1010]) 1).1 = [List.range 11 ++ [1010]] ∧
    List.range 11 ++ [1010] ∈ (runLoop firstCombination 1000).1 := by
  have hfc : firstCombination = List.range 11 ++ [11] := by decide
  have h1 := tailRun 1000 11 (by omega)
  have h2 := tailRun 1 1010 (by omega)
  refine ⟨?_, ?_, ?_, ?_⟩
  · rw [hfc, h1]
  · rw [hfc, h1]
    rw [getLastD_map_range _ 1000 (by omega)]
  · rw [h2]
    decide
  · rw [hfc, h1]
    apply List.mem_map.mpr
    exact ⟨999, by simp [List.mem_range], rfl⟩

/-! ### Claim C3: binary search -/

lemma bsearchGo_correct (hashes : List ℕ) (t : ℕ)
    (hsorted : ∀ i j : ℕ, i < j → j < hashes.length → hashes.getD i 0 < hashes.getD j 0) :
    ∀ fuel : ℕ, ∀ left right : ℤ, 0 ≤ left → right < (hashes.length : ℤ) →
      (∀ k : ℕ, k < hashes.length → hashes.getD k 0 = t → left ≤ (k : ℤ) ∧ (k : ℤ) ≤ right) →
      right + 1 - left ≤ (fuel : ℤ) →
      (bsearchGo hashes t fuel left right = true ↔
        ∃ k, k < hashes.length ∧ hashes.getD k 0 = t) := by
  intro fuel
  induction fuel with
  | zero =>
      intro left right h0 hlen hinv hfuel
      constructor
      · intro h
        exact absurd h (by simp [bsearchGo])
      · rintro ⟨k, hk, ht⟩
        obtain ⟨hk1, hk2⟩ := hinv k hk ht
        omega
  | succ n ih =>
      intro left right h0 hlen hinv hfuel
      simp only [bsearchGo]
      by_cases hlr : left ≤ right
      · rw [if_pos hlr]
        have hmid1 : left ≤ (left + right) / 2 := by omega
        have hmid2 : (left + right) / 2 ≤ right := by omega
        set mid := (left + right) / 2 with hmiddef
        by_cases heq : hashes.getD mid.toNat 0 = t
        · rw [if_pos heq]
          simp only [true_iff]
          exact ⟨mid.toNat, by omega, heq⟩
        · rw [if_neg heq]
          by_cases hlt : hashes.getD mid.toNat 0 < t
          · rw [if_pos hlt]
            refine ih (mid + 1) right (by omega) hlen ?_ (by omega)
            intro k hk ht
            obtain ⟨hk1, hk2⟩ := hinv k hk ht
            refine ⟨?_, hk2⟩
            by_contra hcon
            push_neg at hcon
            have hkm : k ≤ mid.toNat ∨ k = mid.toNat := by omega
            rcases (by omega : k < mid.toNat ∨ k = mid.toNat) with h' | h'
            · have := hsorted k mid.toNat h' (by omega)
              omega
            · subst h'
              omega
          · rw [if_neg hlt]
            refine ih left (mid - 1) h0 (by omega) ?_ (by omega)
            intro k hk ht
            obtain ⟨hk1, hk2⟩ := hinv k hk ht
            refine ⟨hk1, ?_⟩
            by_contra hcon
            push_neg at hcon
            rcases (by omega : mid.toNat < k ∨ mid.toNat = k) with h' | h'
            · have := hsorted mid.toNat k h' hk
              omega
            · subst h'
              omega
      · rw [if_neg hlr]
        constructor
        · intro h
          exact absurd h (by simp)
        · rintro ⟨k, hk, ht⟩
          obtain ⟨hk1, hk2⟩ := hinv k hk ht
          omega

lemma exists_getD_iff_mem {l : List ℕ} {f : ℕ} :
    (∃ k, k < l.length ∧ l.getD k 0 = f) ↔ f ∈ l := by
  constructor
  · rintro ⟨k, hk, ht⟩
    rw [List.getD_eq_getElem _ _ hk] at ht
    exact ht ▸ List.getElem_mem hk
  · intro hm
    obtain ⟨n, hn⟩ := List.mem_iff_get.mp hm
    refine ⟨n, n.isLt, ?_⟩
    rw [List.getD_eq_getElem _ _ n.isLt]
    simpa [List.get_eq_getElem] using hn

/-- C3: for every strictly ascending array of 64-bit fingerprints and every
64-bit fingerprint `f`, `binarySearch` returns true iff some element of the
array equals `f` exactly; moreover this is precisely the query `hasAddress`
performs on a loaded, non-empty hash array with the fingerprint of the given
address. -/
theorem binarySearch_mem_iff (hashes : List ℕ) (f : ℕ)
    (hsorted : hashes.Sorted (· < ·))
    (hbound : ∀ x ∈ hashes, x < 2 ^ 64) (hf : f < 2 ^ 64) :
    (binarySearch hashes f = true ↔ f ∈ hashes) ∧
      ∀ address : List ℕ, hashes ≠ [] →
        hasAddress ⟨some hashes⟩ address = binarySearch hashes (xxhash64 address) := by
  have hpos : ∀ i j : ℕ, i < j → j < hashes.length → hashes.getD i 0 < hashes.getD j 0 := by
    intro i j hij hj
    have hp := List.pairwise_iff_get.mp hsorted ⟨i, by omega⟩ ⟨j, hj⟩ (by simpa using hij)
    rw [List.getD_eq_getElem _ _ (by omega : i < hashes.length), List.getD_eq_getElem _ _ hj]
    simpa [List.get_eq_getElem] using hp
  constructor
  · have hb := bsearchGo_correct hashes f hpos (hashes.length + 1) 0
      ((hashes.length : ℤ) - 1) (by omega) (by omega)
      (fun k hk _ => by constructor <;> omega) (by push_cast; omega)
    rw [show binarySearch hashes f
        = bsearchGo hashes f (hashes.length + 1) 0 ((hashes.length : ℤ) - 1) from rfl]
    rw [hb]
    exact exists_getD_iff_mem
  · intro address hne
    unfold hasAddress
    dsimp only
    rw [if_neg (by simpa using hne)]

/-- Witness for `binarySearch_mem_iff` on the spec's example index
`[10, 20, 30, 40]` with query `10`. -/
theorem binarySearch_mem_iff_witness :
    ([10, 20, 30, 40] : List ℕ).Sorted (· < ·) ∧
      (∀ x ∈ ([10, 20, 30, 40] : List ℕ), x < 2 ^ 64) ∧ (10 : ℕ) < 2 ^ 64 ∧
      ((binarySearch [10, 20, 30, 40] 10 = true ↔ (10 : ℕ) ∈ [10, 20, 30, 40]) ∧
        ∀ address : List ℕ, ([10, 20, 30, 40] : List ℕ) ≠ [] →
          hasAddress ⟨some [10, 20, 30, 40]⟩ address
            = binarySearch [10, 20, 30, 40] (xxhash64 address)) :=
  ⟨by decide, by decide, by decide,
    binarySearch_mem_iff [10, 20, 30, 40] 10 (by decide) (by decide) (by decide)⟩

/-! ### Claim C4: database load rejection -/

/-- C4 (amended): `loadDatabase` yields no usable index whenever the file is
shorter than the 24-byte header, the first 8 bytes differ modulo 128 from the
`BTCHASH1` magic (Node's ascii decoding strips the high bit before the
comparison), the declared element width is not 8, or fewer data bytes follow
the header than the declared count times 8. -/
theorem loadDatabase_rejects_malformed (buffer : List ℕ)
    (h : buffer.length < 24 ∨ (buffer.take 8).map (fun b => b % 128) ≠ magicTag ∨
      readLE64 buffer 16 ≠ 8 ∨ buffer.length - 24 < readLE64 buffer 8 * 8) :
    loadDatabase buffer = none := by
  unfold loadDatabase
  dsimp only
  split_ifs with h1 h2 h3 h4 h5
  all_goals first
    | rfl
    | (exfalso; tauto)

/-- Witness for `loadDatabase_rejects_malformed`: a file with correct magic
and count 0 but element width 9 is rejected. -/
theorem loadDatabase_rejects_malformed_witness :
    (([66, 84, 67, 72, 65, 83, 72, 49] ++ List.replicate 8 0 ++
          ([9] ++ List.replicate 7 0) : List ℕ).length < 24 ∨
      ((([66, 84, 67, 72, 65, 83, 72, 49] ++ List.replicate 8 0 ++
          ([9] ++ List.replicate 7 0) : List ℕ)).take 8).map (fun b => b % 128) ≠ magicTag ∨
      readLE64 ([66, 84, 67, 72, 65, 83, 72, 49] ++ List.replicate 8 0 ++
          ([9] ++ List.replicate 7 0)) 16 ≠ 8 ∨
      ([66, 84, 67, 72, 65, 83, 72, 49] ++ List.replicate 8 0 ++
          ([9] ++ List.replicate 7 0) : List ℕ).length - 24 <
        readLE64 ([66, 84, 67, 72, 65, 83, 72, 49] ++ List.replicate 8 0 ++
          ([9] ++ List.replicate 7 0)) 8 * 8) ∧
    loadDatabase ([66, 84, 67, 72, 65, 83, 72, 49] ++ List.replicate 8 0 ++
      ([9] ++ List.replicate 7 0)) = none :=
  ⟨by decide, loadDatabase_rejects_malformed _ (by decide)⟩

/-- C4 counterexample: a 32-byte file whose first byte is `0xC2 = 194` — so
its magic tag is NOT the ASCII `BTCHASH1` — still loads successfully into a
usable one-element index (count 1, width 8, one 8-byte fingerprint `7`),
because the source's `buffer.toString('ascii', 0, 8)` comparison strips the
high bit of every byte: wrong magic is not always rejected. -/
theorem loadDatabase_magic_high_bit_counterexample :
    (([194, 84, 67, 72, 65, 83, 72, 49] ++ ([1] ++ List.replicate 7 0) ++
        ([8] ++ List.replicate 7 0) ++ ([7] ++ List.replicate 7 0) : List ℕ)).take 8
      ≠ magicTag ∧
    loadDatabase ([194, 84, 67, 72, 65, 83, 72, 49] ++ ([1] ++ List.replicate 7 0) ++
      ([8] ++ List.replicate 7 0) ++ ([7] ++ List.replicate 7 0)) = some ([7], false) := by
  decide

/-! ### Claim C9: bounded sortedness check, non-fatal -/

/-- C9: `verifyOrdering` inspects only adjacent pairs among the first 1000
elements (its verdict depends only on `take 1000`, and it holds exactly when
those adjacent pairs are strictly increasing — an array unsorted only beyond
the first 1000 elements passes with no warning); a violation is non-fatal:
`loadDatabase` succeeds exactly when the structural header checks pass,
independent of ordering, and merely sets the warning flag to the negation of
`verifyOrdering` on the decoded array. -/
theorem verifyOrdering_bounded_nonfatal :
    (∀ l : List ℕ, verifyOrdering l = verifyOrdering (l.take 1000)) ∧
    (∀ l : List ℕ, verifyOrdering l = true ↔
      ∀ i, 0 < i → i < min 1000 l.length → l.getD (i - 1) 0 < l.getD i 0) ∧
    (∀ buffer : List ℕ, (loadDatabase buffer).isSome = true ↔ structuralOk buffer) ∧
    (∀ buffer hashes w, loadDatabase buffer = some (hashes, w) →
      w = !verifyOrdering hashes) := by
  have hiff : ∀ l : List ℕ, verifyOrdering l = true ↔
      ∀ i, 0 < i → i < min 1000 l.length → l.getD (i - 1) 0 < l.getD i 0 := by
    intro l
    unfold verifyOrdering
    rw [List.all_eq_true]
    constructor
    · intro h i hi1 hi2
      have := h i (List.mem_range'_1.mpr ⟨hi1, by omega⟩)
      simpa using this
    · intro h i hi
      obtain ⟨h1, h2⟩ := List.mem_range'_1.mp hi
      simpa using h i h1 (by omega)
  have htake : ∀ (l : List ℕ) (m : ℕ), m < 1000 → (l.take 1000).getD m 0 = l.getD m 0 := by
    intro l m hm
    rw [List.getD_eq_getElem?_getD, List.getD_eq_getElem?_getD, List.getElem?_take,
      if_pos hm]
  refine ⟨?_, hiff, ?_, ?_⟩
  · intro l
    rw [Bool.eq_iff_iff, hiff, hiff]
    have hmin : min 1000 (l.take 1000).length = min 1000 l.length := by
      simp [List.length_take]
    constructor
    · intro h i hi1 hi2
      rw [htake l (i - 1) (by omega), htake l i (by omega)]
      exact h i hi1 (by omega)
    · intro h i hi1 hi2
      rw [← htake l (i - 1) (by omega), ← htake l i (by omega)]
      exact h i hi1 (by omega)
  · intro buffer
    unfold loadDatabase structuralOk
    dsimp only
    by_cases h1 : buffer.length < 24
    · rw [if_pos h1]
      simp only [Option.isSome_none, Bool.false_eq_true, false_iff]
      intro hok
      exact absurd hok.1 (by omega)
    · rw [if_neg h1]
      by_cases h2 : (buffer.take 8).map (fun b => b % 128) ≠ magicTag
      · rw [if_pos h2]
        simp only [Option.isSome_none, Bool.false_eq_true, false_iff]
        intro hok
        exact h2 hok.2.1
      · rw [if_neg h2]
        by_cases h3 : readLE64 buffer 16 ≠ 8
        · rw [if_pos h3]
          simp only [Option.isSome_none, Bool.false_eq_true, false_iff]
          intro hok
          exact h3 hok.2.2.1
        · rw [if_neg h3]
          by_cases h4 : buffer.length - 24 < readLE64 buffer 8 * 8
          · rw [if_pos h4]
            simp only [Option.isSome_none, Bool.false_eq_true, false_iff]
            intro hok
            exact absurd hok.2.2.2.1 (by omega)
          · rw [if_neg h4]
            by_cases h5 : readLE64 buffer 8 = 0
            · rw [if_pos h5]
              simp only [Option.isSome_none, Bool.false_eq_true, false_iff]
              intro hok
              exact hok.2.2.2.2 h5
            · rw [if_neg h5]
              simp only [Option.isSome_some, true_iff]
              exact ⟨by omega, not_not.mp h2, not_not.mp h3, by omega, h5⟩
  · intro buffer hashes w h
    unfold loadDatabase at h
    dsimp only at h
    split_ifs at h
    injection h with h
    injection h with ha hb
    subst ha hb
    rfl

/-- Witness for `verifyOrdering_bounded_nonfatal`: a well-formed file whose
two fingerprints `[5, 3]` are out of order still loads — with the warning
flag set. -/
theorem verifyOrdering_bounded_nonfatal_witness :
    loadDatabase ([66, 84, 67, 72, 65, 83, 72, 49] ++ ([2] ++ List.replicate 7 0) ++
        ([8] ++ List.replicate 7 0) ++ ([5] ++ List.replicate 7 0) ++
        ([3] ++ List.replicate 7 0)) = some ([5, 3], true) ∧
      true = !verifyOrdering [5, 3] :=
  ⟨by decide,
    verifyOrdering_bounded_nonfatal.2.2.2
      ([66, 84, 67, 72, 65, 83, 72, 49] ++ ([2] ++ List.replicate 7 0) ++
        ([8] ++ List.replicate 7 0) ++ ([5] ++ List.replicate 7 0) ++
        ([3] ++ List.replicate 7 0)) [5, 3] true (by decide)⟩

/-! ### Claim C5: checkpoint resume validation -/

/-- C5 (amended): `loadCheckpoint` performs no invariant validation at all:
whenever the parsed checkpoint carries an indices field, that state is adopted
unchanged — whether or not it satisfies the invariant — with `|| 0` / `|| []`
defaulting for the counters, and it becomes the enumerator's resume state;
only a missing or unparsable file, or an absent indices field, falls back to
the previous (fresh-start) state. -/
theorem loadCheckpoint_no_validation (st : RecoveryState) (cp : Checkpoint)
    (idx : List ℕ) (h : cp.indices = some idx) :
    loadCheckpoint st (some cp) =
      { currentIndices := some idx,
        checkedCombinations := cp.checkedCombinations.getD 0,
        foundSeeds := cp.foundSeeds.getD [] } ∧
    startIndices (loadCheckpoint st (some cp)) = idx ∧
    loadCheckpoint st none = st := by
  unfold loadCheckpoint startIndices
  dsimp only
  rw [h]
  exact ⟨rfl, rfl, rfl⟩

/-- Witness for `loadCheckpoint_no_validation` at a concrete checkpoint. -/
theorem loadCheckpoint_no_validation_witness :
    ((⟨some [5, 4, 3, 2, 1, 0, 6, 7, 8, 9, 10, 11], some 7, some [], [], []⟩ :
        Checkpoint).indices = some [5, 4, 3, 2, 1, 0, 6, 7, 8, 9, 10, 11]) ∧
      (loadCheckpoint ⟨none, 0, []⟩
          (some ⟨some [5, 4, 3, 2, 1, 0, 6, 7, 8, 9, 10, 11], some 7, some [], [], []⟩) =
        ⟨some [5, 4, 3, 2, 1, 0, 6, 7, 8, 9, 10, 11], 7, []⟩ ∧
      startIndices (loadCheckpoint ⟨none, 0, []⟩
          (some ⟨some [5, 4, 3, 2, 1, 0, 6, 7, 8, 9, 10, 11], some 7, some [], [], []⟩))
        = [5, 4, 3, 2, 1, 0, 6, 7, 8, 9, 10, 11] ∧
      loadCheckpoint ⟨none, 0, []⟩ none = ⟨none, 0, []⟩) :=
  ⟨rfl, loadCheckpoint_no_validation ⟨none, 0, []⟩ _ _ rfl⟩

/-- C5 counterexample: a hand-edited checkpoint whose indices are strictly
decreasing — violating the enumerator invariant — is not rejected:
`loadCheckpoint` adopts it unchanged and the search resumes from the invalid
state instead of falling back to a fresh start. -/
theorem loadCheckpoint_accepts_invalid_counterexample :
    ¬ ValidState [2047, 2046, 2045, 2044, 2043, 2042, 2041, 2040, 2039, 2038, 2037, 2036] ∧
    (loadCheckpoint ⟨none, 0, []⟩
        (some ⟨some [2047, 2046, 2045, 2044, 2043, 2042, 2041, 2040, 2039, 2038, 2037, 2036],
          some 5, some [], [], []⟩)).currentIndices
      = some [2047, 2046, 2045, 2044, 2043, 2042, 2041, 2040, 2039, 2038, 2037, 2036] ∧
    startIndices (loadCheckpoint ⟨none, 0, []⟩
        (some ⟨some [2047, 2046, 2045, 2044, 2043, 2042, 2041, 2040, 2039, 2038, 2037, 2036],
          some 5, some [], [], []⟩))
      = [2047, 2046, 2045, 2044, 2043, 2042, 2041, 2040, 2039, 2038, 2037, 2036] ∧
    [2047, 2046, 2045, 2044, 2043, 2042, 2041, 2040, 2039, 2038, 2037, 2036]
      ≠ firstCombination := by
  refine ⟨by decide, rfl, rfl, by decide⟩

/-! ### Claim C6: checkpoint round-trip -/

/-- C6: saving a checkpoint from a state with a (valid) combination state and
loading it back restores an equal combination state, an equal cumulative
tested counter and an equal found-records list, whatever state the loader
starts from. -/
theorem checkpoint_roundtrip (st init : RecoveryState) (idx ts et : List ℕ)
    (hidx : st.currentIndices = some idx) (hv : ValidState idx) :
    loadCheckpoint init (some (saveCheckpoint st ts et)) =
      { currentIndices := st.currentIndices,
        checkedCombinations := st.checkedCombinations,
        foundSeeds := st.foundSeeds } := by
  have h1 : (saveCheckpoint st ts et).indices = some idx := by
    rw [← hidx]
    rfl
  unfold loadCheckpoint
  dsimp only
  rw [h1, hidx]
  rfl

/-- Witness for `checkpoint_roundtrip` at a concrete state. -/
theorem checkpoint_roundtrip_witness :
    ((⟨some firstCombination, 42, []⟩ : RecoveryState).currentIndices
        = some firstCombination) ∧
      ValidState firstCombination ∧
      loadCheckpoint ⟨none, 0, []⟩
          (some (saveCheckpoint ⟨some firstCombination, 42, []⟩ [] [])) =
        ⟨(⟨some firstCombination, 42, []⟩ : RecoveryState).currentIndices, 42, []⟩ :=
  ⟨rfl, by decide,
    checkpoint_roundtrip ⟨some firstCombination, 42, []⟩ ⟨none, 0, []⟩
      firstCombination [] [] rfl (by decide)⟩

/-! ### Claim C7: the found-addresses list -/

/-- C7 (code bug): `checkSeedPhrase` initialises its result as
`new Array(12)` — twelve empty slots — and then `push`es the matched entries,
so on a hit the recorded found-addresses list is NOT exactly the matched
entries: with one derived address matching the index, `found` is true and the
single correct entry (position 0, the address) sits at index 12, after twelve
empty slots, and the list's length is 13 (which is also what the on-hit
display `foundAddresses.length` prints), not 1. -/
theorem checkSeedPhrase_sparse_slots :
    (checkSeedPhrase ⟨some [xxhash64 [65]]⟩ [[65]]).2 = true ∧
    (checkSeedPhrase ⟨some [xxhash64 [65]]⟩ [[65]]).1.length = 13 ∧
    (checkSeedPhrase ⟨some [xxhash64 [65]]⟩ [[65]]).1.take 12 = List.replicate 12 none ∧
    (checkSeedPhrase ⟨some [xxhash64 [65]]⟩ [[65]]).1.getD 12 none
      = some { index := 0, address := [65] } := by
  decide

/-- The matched entries themselves are correct and in ascending position
order: the suffix after the twelve empty slots is exactly one entry per
derived address the database reports, carrying its derivation position. -/
theorem checkSeedPhrase_matched_suffix (db : HashDB) (addresses : List (List ℕ)) :
    (checkSeedPhrase db addresses).1 =
      List.replicate 12 none ++
        (((addresses.enum.filter fun p => hasAddress db p.2).map
          fun p => FoundEntry.mk p.1 p.2).map some) ∧
    ((checkSeedPhrase db addresses).2 = false ↔
      (addresses.enum.filter fun p => hasAddress db p.2) = []) := by
  constructor
  · rfl
  · unfold checkSeedPhrase
    dsimp only
    rw [Bool.not_eq_false', List.isEmpty_iff, List.map_eq_nil_iff]

/-! ### Claim C8: derivation errors -/

/-- C8 (amended): a derivation or hashing error on a single combination never
aborts the search: `generateAddresses` catches it and returns `[]`, whereupon
`checkSeedPhrase` reports no match (`found = false`) and the loop simply
continues; the error is, however, silently absorbed — nothing downstream can
distinguish it from a non-matching combination, and it is counted as a
tested, non-matching combination. -/
theorem generateAddresses_error_no_abort (db : HashDB) (v : Bool) (e : Unit) :
    generateAddresses v (Except.error e) = [] ∧
    checkSeedPhrase db (generateAddresses v (Except.error e)) =
      (List.replicate 12 none, false) := by
  cases v <;> exact ⟨rfl, rfl⟩

/-- Witness for `generateAddresses_error_no_abort` on a fresh database. -/
theorem generateAddresses_error_no_abort_witness :
    generateAddresses true (Except.error ()) = [] ∧
      checkSeedPhrase ⟨none⟩ (generateAddresses true (Except.error ())) =
        (List.replicate 12 none, false) :=
  generateAddresses_error_no_abort ⟨none⟩ true ()

/-- C8 counterexample: the outcome of a combination whose derivation throws is
bit-for-bit identical to the outcome of a valid combination that derives no
addresses and to that of an invalid mnemonic — the suppressed error leaves no
trace, so it cannot be logged or counted separately from the hit/miss
bookkeeping. -/
theorem generateAddresses_error_indistinguishable :
    generateAddresses true (Except.error ()) = generateAddresses true (Except.ok []) ∧
    generateAddresses true (Except.error ()) = generateAddresses false (Except.ok [[65]]) ∧
    checkSeedPhrase ⟨some [42]⟩ (generateAddresses true (Except.error ())) =
      checkSeedPhrase ⟨some [42]⟩ (generateAddresses true (Except.ok [])) :=
  ⟨rfl, rfl, rfl⟩

/-! ### Claim C10: totality of hasAddress -/

/-- C10: for every input address, `hasAddress` returns `false` whenever no
database has been loaded (`this.hashes` still null) or the loaded hash array
is empty — the guard makes the membership query total at the public
interface. -/
theorem hasAddress_unloaded_false (db : HashDB) (address : List ℕ)
    (h : db.hashes = none ∨ db.hashes = some []) :
    hasAddress db address = false := by
  rcases h with h | h
  · unfold hasAddress
    rw [h]
  · unfold hasAddress
    rw [h]
    rfl

/-- Witness for `hasAddress_unloaded_false` on a fresh (unloaded) database. -/
theorem hasAddress_unloaded_false_witness :
    ((⟨none⟩ : HashDB).hashes = none ∨ (⟨none⟩ : HashDB).hashes = some []) ∧
      hasAddress ⟨none⟩ [65] = false :=
  ⟨Or.inl rfl, hasAddress_unloaded_false ⟨none⟩ [65] (Or.inl rfl)⟩

end BTCRecovery
